import Mathlib

/-!
Verification of the bit-field packer (bits.py) and the LZW encoder
(filter.py) of the pypyrus repository.

The embedding below translates the Python source directly.  Python integers
are unbounded and, in every state this development touches, non-negative, so
they are modelled as Nat.  Two Python expressions need a note:

* In next(), the source computes  r & clear_mask  where
  clear_mask = ~(pack_mask << max_wbits)  is a negative integer.  For a
  non-negative r and non-negative mask m, the Python value  r & ~m  is r with
  the bits of m cleared, which on Nat is  r - (r &&& m).  The helper landc
  below embeds that operation.
* Python max(0, a - b) on ints is Nat truncated subtraction  a - b,  and
  Python max(m, a - b) with m >= 0 is Nat  max m (a - b);  both are used
  where the source subtracts possibly below zero.

The misspelled attribute written by set_input_field_width in the source
(self.defualt_wbits) is kept as a separate field defualt_wbits, which no
other method reads, exactly as in the source.
-/

/-- Sum of the widths of a queued field list (helper for fuel bounds and
for the bit-stream semantics used in the round-trip proof). -/
def wsum : List (Nat × Nat) → Nat
  | [] => 0
  | f :: t => f.2 + wsum t

/-- Big-endian concatenation value of a queued field list: each field
(v, w) contributes w bits, high bits first. -/
def vcat : List (Nat × Nat) → Nat
  | [] => 0
  | f :: t => f.1 * 2 ^ wsum t + vcat t

/-- Embedding of the Python expression  r & ~m  (bitwise AND with the
complement of m) for non-negative r and m: clear the bits of m in r.
Since the bits of  r &&& m  are a subset of the bits of r, this equals
the subtraction below. -/
def landc (r m : Nat) : Nat := r - (r &&& m)

/-- Embedding of the mask-building loop in Packer._update_masks:
for i in range(n): mask |= (1 << i). -/
def or_mask : Nat → Nat
  | 0 => 0
  | n + 1 => or_mask n ||| (1 <<< n)

/-- State of bits.Packer.  Fields carry the names of the Python instance
attributes.  clear_bits stores the non-negative value
pack_mask <<< max_wbits whose complement the source keeps as clear_mask;
the only use of clear_mask in the source is  r & clear_mask,  embedded as
landc r clear_bits.  defualt_wbits is the misspelled attribute created by
set_input_field_width (never read anywhere). -/
structure Packer where
  default_wbits : Nat
  defualt_wbits : Option Nat
  fields : List (Nat × Nat)
  r : Nat
  out_wbits : Nat
  max_wbits : Nat
  r_wbits : Nat
  bit_count : Nat
  pack_mask : Nat
  clear_bits : Nat
deriving DecidableEq

/-- Packer._update_masks. -/
def Packer.update_masks (p : Packer) : Packer :=
  let pm := or_mask p.out_wbits
  { p with pack_mask := pm, clear_bits := pm <<< p.max_wbits }

/-- Packer._update_max_wbits.  Note: the source line  self.r << diff
computes a shift and discards the result, so r is not updated. -/
def Packer.update_max_wbits (p : Packer) (new_max : Nat) : Packer :=
  if new_max > p.max_wbits then
    Packer.update_masks
      { p with max_wbits := new_max, r_wbits := p.out_wbits + new_max }
  else p

/-- Packer.__init__(in_wbits, out_wbits=8). -/
def Packer.init (in_wbits out_wbits : Nat) : Packer :=
  Packer.update_masks
    { default_wbits := in_wbits
      defualt_wbits := none
      fields := []
      r := 0
      out_wbits := out_wbits
      max_wbits := in_wbits
      r_wbits := out_wbits + in_wbits
      bit_count := 0
      pack_mask := 0
      clear_bits := 0 }

/-- The while loop inside Packer.next: while bit_count < out_wbits and the
queue is non-empty, pop the front field and OR it into the buffer. -/
def fillLoop (out_wbits rw : Nat) :
    List (Nat × Nat) → Nat → Nat → List (Nat × Nat) × Nat × Nat
  | [], r, bit_count => ([], r, bit_count)
  | (v, wbits) :: rest, r, bit_count =>
    if bit_count < out_wbits then
      fillLoop out_wbits rw rest (r ||| (v <<< (rw - bit_count - wbits)))
        (bit_count + wbits)
    else ((v, wbits) :: rest, r, bit_count)

/-- Packer.next.  A StopIteration raise is modelled as none; the Python
raise happens before any mutation, so the caller keeps the packer
unchanged in that case.  The final bit_count update embeds
max(0, bit_count - out_wbits) as Nat subtraction. -/
def Packer.next (p : Packer) : Option (Nat × Packer) :=
  if p.fields.length = 0 ∧ p.bit_count ≤ 0 then none
  else
    let t := fillLoop p.out_wbits p.r_wbits p.fields p.r p.bit_count
    let r := t.2.1
    some ((r >>> p.max_wbits) &&& p.pack_mask,
      { p with fields := t.1
               r := landc r p.clear_bits <<< p.out_wbits
               bit_count := t.2.2 - p.out_wbits })

/-- Packer.set_input_field_width.  The source assigns the new width to the
misspelled attribute defualt_wbits; default_wbits, the attribute read by
pack, is left unchanged. -/
def Packer.set_input_field_width (p : Packer) (in_wbits : Nat) : Packer :=
  let p := p.update_max_wbits in_wbits
  { p with defualt_wbits := some in_wbits }

/-- Packer.set_output_field_width.  max(self.max_wbits, bit_count - out)
on Python ints equals Nat  max max_wbits (bit_count - out). -/
def Packer.set_output_field_width (p : Packer) (out_wbits : Nat) : Packer :=
  let saved_bits := p.r >>> (p.r_wbits - p.bit_count)
  let max_wbits := max p.max_wbits (p.bit_count - out_wbits)
  let r_wbits := out_wbits + max_wbits
  Packer.update_masks
    { p with out_wbits := out_wbits
             max_wbits := max_wbits
             r_wbits := r_wbits
             r := saved_bits <<< (r_wbits - p.bit_count) }

/-- Packer.pack(field, wbits=None). -/
def Packer.pack (p : Packer) (field : Nat) (wbits : Option Nat) : Packer :=
  match wbits with
  | none => { p with fields := p.fields ++ [(field, p.default_wbits)] }
  | some w =>
    let p := p.update_max_wbits w
    { p with fields := p.fields ++ [(field, w)] }

/-- Fuel-bounded iteration of next, collecting the produced values.
Stops at the first Exhausted. -/
def Packer.drain : Nat → Packer → List Nat
  | 0, _ => []
  | fuel + 1, p =>
    match p.next with
    | none => []
    | some (v, p') => v :: Packer.drain fuel p'

/-- Iterate next until Exhausted (as array("B", p) or a for loop over the
packer does).  One output value consumes at least one queued bit unless the
stream is already past its last value, so bit_count + wsum fields + 1 calls
always reach Exhausted. -/
def Packer.drainAll (p : Packer) : List Nat :=
  p.drain (p.bit_count + wsum p.fields + 1)

/-- Pack a list of values with the default input width (pack(v) in a loop). -/
def Packer.packAll (p : Packer) (vs : List Nat) : Packer :=
  vs.foldl (fun q v => q.pack v none) p

/-- Feed every value of vs to a fresh Packer(in_wbits, out_wbits) and drain
it to the end: the repacking pipeline of the round-trip property. -/
def repack (in_wbits out_wbits : Nat) (vs : List Nat) : List Nat :=
  ((Packer.init in_wbits out_wbits).packAll vs).drainAll

/-- Python int.bit_length, by structural recursion on a fuel argument
(n halvings always suffice for n). -/
def blen_aux : Nat → Nat → Nat
  | 0, _ => 0
  | fuel + 1, n => if n = 0 then 0 else blen_aux fuel (n / 2) + 1

/-- Python int.bit_length: number of bits needed to represent n. -/
def bit_length (n : Nat) : Nat := blen_aux n n

/-- LZW.CLEAR_TABLE. -/
def LZW.CLEAR_TABLE : Nat := 256

/-- LZW.EOD. -/
def LZW.EOD : Nat := 257

/-- The LZW code table: an association list from byte strings to codes,
together with the state of the itertools.count(258) default factory. -/
structure LZWTable where
  entries : List (List Nat × Nat)
  counter : Nat
deriving DecidableEq

/-- Association-list search, first match wins (dict keys here are unique
because insertion only happens on a missing key). -/
def assocFind : List (List Nat × Nat) → List Nat → Option Nat
  | [], _ => none
  | (k, v) :: t, key => if k = key then some v else assocFind t key

/-- Membership and plain lookup on the table, without the default factory
(the Python  key in table  test). -/
def LZWTable.find? (t : LZWTable) (key : List Nat) : Option Nat :=
  assocFind t.entries key

/-- defaultdict access table[key]: on a missing key the default factory
inserts the next counter value and advances the counter. -/
def LZWTable.getd (t : LZWTable) (key : List Nat) : Nat × LZWTable :=
  match t.find? key with
  | some v => (v, t)
  | none =>
    (t.counter,
      { entries := t.entries ++ [(key, t.counter)], counter := t.counter + 1 })

/-- LZW.default_table: defaultdict(itertools.count(258).next,
((struct pack of i, i) for i in range(255))).  Note range(255) seeds the
single bytes 0 .. 254 only. -/
def LZW.default_table : LZWTable :=
  { entries := (List.range 255).map (fun i => ([i], i)), counter := 258 }

/-- One iteration of the scan loop of lzw_encode, over the state
(table, packer, seq). -/
def lzw_step (st : LZWTable × Packer × List Nat) (v : Nat) :
    LZWTable × Packer × List Nat :=
  let tbl := st.1
  let codes := st.2.1
  let seq := st.2.2
  let seq2 := seq ++ [v]
  if (tbl.find? seq2).isSome then (tbl, codes, seq2)
  else
    let e := tbl.getd seq
    let codes := codes.pack e.1 none
    let e2 := e.2.getd seq2
    let codes := codes.set_input_field_width (bit_length e2.1)
    (e2.2, codes, [v])

/-- lzw_encode up to, but not including, the final drain: table creation,
the initial CLEAR_TABLE code, the scan loop, the trailing-seq emission and
the EOD code.  Returns the loaded packer. -/
def lzw_packed (s : List Nat) : Packer :=
  let codes := (Packer.init 9 8).pack LZW.CLEAR_TABLE none
  let st := s.foldl lzw_step (LZW.default_table, codes, [])
  let tbl := st.1
  let codes := st.2.1
  let seq := st.2.2
  let codes := if seq = [] then codes else codes.pack (tbl.getd seq).1 none
  codes.pack LZW.EOD none

/-- lzw_encode: scan the input, then serialize the packer output bytes
(array("B", codes), which iterates the packer to Exhausted). -/
def lzw_encode (s : List Nat) : List Nat :=
  (lzw_packed s).drainAll

/-- Decompose a bit stream of width W and value V (V < 2 ^ W) into
out_wbits-sized output values, high bits first, the last value padded with
zeros on the low side.  This is the specification-level description of what
draining a Packer produces. -/
def chunks (o W V : Nat) : List Nat :=
  if h : W = 0 ∨ o = 0 then []
  else
    (if o ≤ W then V / 2 ^ (W - o) else V * 2 ^ (o - W)) ::
      chunks o (W - o) (V % 2 ^ (W - o))
termination_by W
decreasing_by omega

/-- Well-formed queued fields for a packer whose maximum width is m:
every value fits in its width, and widths are between 1 and m. -/
def FOk (m : Nat) (fs : List (Nat × Nat)) : Prop :=
  ∀ f ∈ fs, f.1 < 2 ^ f.2 ∧ 1 ≤ f.2 ∧ f.2 ≤ m

/-- Packer states reachable through the public interface. -/
inductive Reachable : Packer → Prop
  | init (in_wbits out_wbits : Nat) : Reachable (Packer.init in_wbits out_wbits)
  | pack (p : Packer) (v : Nat) (w : Option Nat) :
      Reachable p → Reachable (p.pack v w)
  | set_input (p : Packer) (w : Nat) :
      Reachable p → Reachable (p.set_input_field_width w)
  | set_output (p : Packer) (w : Nat) :
      Reachable p → Reachable (p.set_output_field_width w)
  | next (p : Packer) (v : Nat) (p' : Packer) :
      Reachable p → p.next = some (v, p') → Reachable p'

/-- The packer state reached after Packer(8, out_wbits=4); pack(255);
next().  Its buffer holds 4 pending bits left-justified in a 12-bit
buffer (bits 8 .. 11 of r = 3840). -/
def c3_state : Packer :=
  { default_wbits := 8
    defualt_wbits := none
    fields := []
    r := 3840
    out_wbits := 4
    max_wbits := 8
    r_wbits := 12
    bit_count := 4
    pack_mask := 15
    clear_bits := 3840 }

/-- A 258-byte input whose LZW scan fills the code table up to code 513 and
then re-encounters the prefix holding code 512, so lzw_encode emits code
512: bytes 0, 1, ..., 254 followed by 0, 254, 0. -/
def bigInput : List Nat := List.range 255 ++ [0, 254, 0]

set_option maxRecDepth 10000

/-! ## Simple structural lemmas about the Packer interface -/

/-- C8: next raises Exhausted (returns none) exactly when the field queue is
empty and the pending bit count is zero at the time of the call.  The raise
is modelled as none with the state untouched (the Python raise precedes any
mutation), so on an unmodified packer every later call raises again. -/
theorem next_none_iff (p : Packer) :
    p.next = none ↔ (p.fields = [] ∧ p.bit_count = 0) := by
  unfold Packer.next
  split
  · rename_i h
    simp only [true_iff]
    exact ⟨List.length_eq_zero.mp h.1, Nat.le_zero.mp h.2⟩
  · rename_i h
    simp only [reduceCtorEq, false_iff]
    intro hc
    exact h ⟨by simp [hc.1], by omega⟩

/-- C9: pack appends exactly one field at the end of the pending queue and
touches neither the buffer contents nor the pending bit count; no bits are
folded into the buffer until a later next call (pack with an explicit width
may still grow the capacity fields max_wbits, r_wbits and the masks). -/
theorem pack_frame (p : Packer) (v : Nat) (w : Option Nat) :
    (p.pack v w).fields = p.fields ++ [(v, w.getD p.default_wbits)] ∧
      (p.pack v w).r = p.r ∧ (p.pack v w).bit_count = p.bit_count := by
  cases w with
  | none => simp [Packer.pack]
  | some w =>
    simp only [Packer.pack, Packer.update_max_wbits, Packer.update_masks,
      Option.getD_some]
    split <;> simp

/-- Closed instance of next_none_iff at a drained packer. -/
theorem next_none_iff_witness :
    (Packer.init 9 8).next = none ↔
      ((Packer.init 9 8).fields = [] ∧ (Packer.init 9 8).bit_count = 0) :=
  next_none_iff (Packer.init 9 8)

/-- Closed instance of pack_frame at a concrete packer and field. -/
theorem pack_frame_witness :
    ((Packer.init 9 8).pack 256 none).fields =
        (Packer.init 9 8).fields ++ [(256, Option.getD none (Packer.init 9 8).default_wbits)] ∧
      ((Packer.init 9 8).pack 256 none).r = (Packer.init 9 8).r ∧
      ((Packer.init 9 8).pack 256 none).bit_count = (Packer.init 9 8).bit_count :=
  pack_frame (Packer.init 9 8) 256 none

/-- C2: set_input_field_width(5) on Packer(9) fails to change the default
width read by pack: the source assigns the misspelled attribute
defualt_wbits, so a following pack(1) without an explicit width still
queues the field at width 9, not 5, while the new width is only recorded
in the never-read misspelled attribute. -/
theorem set_input_field_width_bug :
    ((Packer.init 9 8).set_input_field_width 5).default_wbits = 9 ∧
      ((Packer.init 9 8).set_input_field_width 5).defualt_wbits = some 5 ∧
      (((Packer.init 9 8).set_input_field_width 5).pack 1 none).fields = [(1, 9)] := by
  decide

/-- C3: growing the maximum width during pack does not shift the buffered
bits: after Packer(8, out_wbits=4); pack(255); next() the state is c3_state
with 4 pending bits at the top of a 12-bit buffer; pack(0, 12) then grows
the buffer to 16 bits but leaves r unchanged (the source discards the
result of  self.r << diff),  so the low bufferWidth - pendingBits = 12 bits
of the buffer are no longer zero: the claimed invariant fails. -/
theorem update_max_wbits_shift_discarded :
    ((Packer.init 8 4).pack 255 none).next = some (15, c3_state) ∧
      (c3_state.pack 0 (some 12)).r = c3_state.r ∧
      (c3_state.pack 0 (some 12)).r_wbits - (c3_state.pack 0 (some 12)).bit_count = 12 ∧
      (c3_state.pack 0 (some 12)).r % 2 ^ 12 ≠ 0 := by
  decide

/-- C5: lzw_encode on the 10-byte input 45,45,45,45,45,65,45,45,45,66
produces exactly the bytes 80 0b 60 50 22 0c 0c 85 01 (hex), and
lzw_encode is a pure function, so encoding the same input twice gives
identical output. -/
theorem lzw_encode_example_deterministic :
    lzw_encode [45, 45, 45, 45, 45, 65, 45, 45, 45, 66] =
        [0x80, 0x0b, 0x60, 0x50, 0x22, 0x0c, 0x0c, 0x85, 0x01] ∧
      ∀ s : List Nat, lzw_encode s = lzw_encode s :=
  ⟨by decide, fun _ => rfl⟩

/-- C6: packing eight width-1 fields of value 1 into Packer(1, out_wbits=2)
and switching the output width to 8 before draining yields the same final
byte sequence as Packer(1, out_wbits=8) throughout, namely the single
byte 0xFF. -/
theorem output_width_change_continuity :
    (((Packer.init 1 2).packAll [1, 1, 1, 1, 1, 1, 1, 1]).set_output_field_width 8).drainAll =
        ((Packer.init 1 8).packAll [1, 1, 1, 1, 1, 1, 1, 1]).drainAll ∧
      (((Packer.init 1 2).packAll [1, 1, 1, 1, 1, 1, 1, 1]).set_output_field_width 8).drainAll =
        [0xFF] := by
  decide

/-- C7: LZW.default_table seeds only the 255 single-byte strings 0 .. 254
(the source writes range(255)), so the single byte 255 is absent from the
fresh table and a defaultdict access hands it the next counter code 258
instead of its own byte value 255. -/
theorem default_table_missing_255 :
    LZW.default_table.find? [255] = none ∧
      LZW.default_table.find? [0] = some 0 ∧
      LZW.default_table.find? [254] = some 254 ∧
      (LZW.default_table.getd [255]).1 = 258 := by
  decide

/-- C1 counterexample: repacking the single 9-bit code 256 into bytes and
back does not return [256]: the byte stage pads the 9 bits to 16, and the
second packer turns the 7 padding bits into a trailing zero code, giving
[256, 0]. -/
theorem repack_roundtrip_claim_false :
    repack 8 9 (repack 9 8 [256]) ≠ [256] := by
  decide

/-! ## Arithmetic bridges for the bitwise operations in next -/

/-- Oring a value into cleared low bit positions is addition. -/
theorem lor_mul_pow (c k b : Nat) (hb : b < 2 ^ k) :
    (c * 2 ^ k) ||| b = c * 2 ^ k + b := by
  apply Nat.eq_of_testBit_eq
  intro i
  rw [Nat.testBit_lor]
  have h1 := Nat.testBit_mul_pow_two_add c (Nat.two_pow_pos k) i
  have h2 := Nat.testBit_mul_pow_two_add c hb i
  rw [mul_comm] at h1 h2
  rw [add_zero] at h1
  rw [h1, h2]
  by_cases hik : i < k
  · simp [hik]
  · have hbl : b.testBit i = false := by
      apply Nat.testBit_lt_two_pow
      exact lt_of_lt_of_le hb (Nat.pow_le_pow_right (by omega) (by omega))
    simp [hik, hbl]

/-- The mask loop of _update_masks builds the all-ones mask. -/
theorem or_mask_eq (n : Nat) : or_mask n = 2 ^ n - 1 := by
  induction n with
  | zero => rfl
  | succ n ih =>
    have hp : (2:Nat) ^ (n + 1) = 2 ^ n + 2 ^ n := by rw [pow_succ]; ring
    have h1 : (1:Nat) <<< n = 1 * 2 ^ n := Nat.shiftLeft_eq 1 n
    have hpos := Nat.two_pow_pos n
    rw [or_mask, ih, h1, Nat.lor_comm, lor_mul_pow 1 n _ (by omega)]
    omega

/-- AND with the shifted all-ones mask extracts the middle bit field. -/
theorem land_mask_mid (o mp mid lo : Nat) (hmid : mid < 2 ^ o) (hlo : lo < 2 ^ mp) :
    (mid * 2 ^ mp + lo) &&& ((2 ^ o - 1) <<< mp) = mid * 2 ^ mp := by
  apply Nat.eq_of_testBit_eq
  intro i
  rw [Nat.testBit_land, Nat.testBit_shiftLeft]
  have h1 := Nat.testBit_mul_pow_two_add mid hlo i
  have h2 := Nat.testBit_mul_pow_two_add mid (Nat.two_pow_pos mp) i
  rw [mul_comm] at h1 h2
  rw [add_zero] at h2
  rw [h1, h2, Nat.testBit_two_pow_sub_one]
  by_cases him : i < mp
  · rw [if_pos him, if_pos him, Nat.zero_testBit,
      decide_eq_false (by omega : ¬ i ≥ mp)]
    simp
  · rw [if_neg him, if_neg him, decide_eq_true (by omega : i ≥ mp)]
    by_cases hio : i - mp < o
    · simp [hio]
    · have hm : mid.testBit (i - mp) = false := by
        apply Nat.testBit_lt_two_pow
        exact lt_of_lt_of_le hmid (Nat.pow_le_pow_right (by omega) (by omega))
      simp [hio, hm]

/-- Clearing the middle field (the Python  r & clear_mask)  keeps only the
low bits. -/
theorem landc_clear (o mp mid lo : Nat) (hmid : mid < 2 ^ o) (hlo : lo < 2 ^ mp) :
    landc (mid * 2 ^ mp + lo) ((2 ^ o - 1) <<< mp) = lo := by
  unfold landc
  rw [land_mask_mid o mp mid lo hmid hlo]
  omega

/-- Dividing a two-part concatenation by the full low width leaves the top
of the high part. -/
theorem div_concat (U c s t : Nat) (hc : c < 2 ^ t) :
    (U * 2 ^ t + c) / 2 ^ (s + t) = U / 2 ^ s := by
  have e : (2:Nat) ^ (s + t) = 2 ^ t * 2 ^ s := by rw [← pow_add]; ring_nf
  rw [e, ← Nat.div_div_eq_div_mul, mul_comm U,
    Nat.mul_add_div (Nat.two_pow_pos t), Nat.div_eq_of_lt hc, add_zero]

/-- A concatenation bound: if both parts fit, the concatenation fits. -/
theorem concat_lt (U c s t : Nat) (hU : U < 2 ^ s) (hc : c < 2 ^ t) :
    U * 2 ^ t + c < 2 ^ (s + t) := by
  have e : (2:Nat) ^ (s + t) = 2 ^ s * 2 ^ t := pow_add 2 s t
  have h1 : (U + 1) * 2 ^ t ≤ 2 ^ s * 2 ^ t :=
    Nat.mul_le_mul_right _ (by omega)
  have h2 : (U + 1) * 2 ^ t = U * 2 ^ t + 2 ^ t := by ring
  omega

/-- Reducing a two-part concatenation modulo the full low width keeps the
bottom of the high part in place. -/
theorem mod_concat (U c s t : Nat) (hc : c < 2 ^ t) :
    (U * 2 ^ t + c) % 2 ^ (s + t) = (U % 2 ^ s) * 2 ^ t + c := by
  have hd := Nat.div_add_mod U (2 ^ s)
  have e1 : U * 2 ^ t + c =
      2 ^ (s + t) * (U / 2 ^ s) + ((U % 2 ^ s) * 2 ^ t + c) := by
    calc U * 2 ^ t + c
        = (2 ^ s * (U / 2 ^ s) + U % 2 ^ s) * 2 ^ t + c := by rw [hd]
      _ = 2 ^ (s + t) * (U / 2 ^ s) + ((U % 2 ^ s) * 2 ^ t + c) := by
          rw [pow_add]; ring
  rw [e1, Nat.mul_add_mod]
  exact Nat.mod_eq_of_lt
    (concat_lt _ _ s t (Nat.mod_lt _ (Nat.two_pow_pos s)) hc)

/-- Quotient bound used for the extracted output value. -/
theorem div_lt_pow (U B o : Nat) (hU : U < 2 ^ B) (h : o ≤ B) :
    U / 2 ^ (B - o) < 2 ^ o := by
  rw [Nat.div_lt_iff_lt_mul (Nat.two_pow_pos _)]
  calc U < 2 ^ B := hU
    _ = 2 ^ o * 2 ^ (B - o) := by rw [← pow_add]; congr 1; omega

/-- The extraction step of next: shifting the left-justified pending value
down by max_wbits and masking to out_wbits bits yields the top out_wbits
bits of the pending value, zero-padded on the right when fewer than
out_wbits bits are pending. -/
theorem extract_top (o m U B : Nat) (hU : U < 2 ^ B) (hB : B ≤ o + m) :
    ((U <<< (o + m - B)) >>> m) &&& (2 ^ o - 1) =
      if o ≤ B then U / 2 ^ (B - o) else U * 2 ^ (o - B) := by
  rw [Nat.shiftLeft_eq, Nat.shiftRight_eq_div_pow, Nat.and_pow_two_sub_one_eq_mod]
  by_cases h : o ≤ B
  · have e1 : (2:Nat) ^ m = 2 ^ (o + m - B) * 2 ^ (B - o) := by
      rw [← pow_add]; congr 1; omega
    have e2 : U * 2 ^ (o + m - B) / 2 ^ m = U / 2 ^ (B - o) := by
      rw [e1, ← Nat.div_div_eq_div_mul, Nat.mul_div_cancel _ (Nat.two_pow_pos _)]
    rw [if_pos h, e2, Nat.mod_eq_of_lt (div_lt_pow U B o hU h)]
  · have e1 : (2:Nat) ^ (o + m - B) = 2 ^ (o - B) * 2 ^ m := by
      rw [← pow_add]; congr 1; omega
    have e2 : U * 2 ^ (o + m - B) / 2 ^ m = U * 2 ^ (o - B) := by
      rw [e1, ← mul_assoc, Nat.mul_div_cancel _ (Nat.two_pow_pos _)]
    have hlt : U * 2 ^ (o - B) < 2 ^ o := by
      have hc := concat_lt U 0 B (o - B) hU (Nat.two_pow_pos _)
      have e3 : B + (o - B) = o := by omega
      rw [e3] at hc
      omega
    rw [if_neg h, e2, Nat.mod_eq_of_lt hlt]

/-- The clear-and-shift step of next: clearing the extracted field and
shifting left by out_wbits leaves exactly the not-yet-emitted pending bits,
left-justified for the new pending count B - o. -/
theorem clear_shift (o m U B : Nat) (hU : U < 2 ^ B) (hB : B ≤ o + m) :
    landc (U <<< (o + m - B)) ((2 ^ o - 1) <<< m) <<< o =
      (U % 2 ^ (B - o)) <<< (o + m - (B - o)) := by
  by_cases h : o ≤ B
  · have hd := Nat.div_add_mod U (2 ^ (B - o))
    have e0 : U <<< (o + m - B) =
        (U / 2 ^ (B - o)) * 2 ^ m + (U % 2 ^ (B - o)) * 2 ^ (o + m - B) := by
      rw [Nat.shiftLeft_eq]
      calc U * 2 ^ (o + m - B)
          = (2 ^ (B - o) * (U / 2 ^ (B - o)) + U % 2 ^ (B - o)) * 2 ^ (o + m - B) := by
            rw [hd]
        _ = (U / 2 ^ (B - o)) * (2 ^ (B - o) * 2 ^ (o + m - B)) +
              (U % 2 ^ (B - o)) * 2 ^ (o + m - B) := by ring
        _ = (U / 2 ^ (B - o)) * 2 ^ m + (U % 2 ^ (B - o)) * 2 ^ (o + m - B) := by
            rw [← pow_add, show B - o + (o + m - B) = m by omega]
    have hlo : (U % 2 ^ (B - o)) * 2 ^ (o + m - B) < 2 ^ m := by
      have hc := concat_lt (U % 2 ^ (B - o)) 0 (B - o) (o + m - B)
        (Nat.mod_lt _ (Nat.two_pow_pos _)) (Nat.two_pow_pos _)
      have e3 : B - o + (o + m - B) = m := by omega
      rw [e3] at hc
      omega
    rw [e0, landc_clear o m _ _ (div_lt_pow U B o hU h) hlo,
      Nat.shiftLeft_eq, Nat.shiftLeft_eq, mul_assoc, ← pow_add]
    congr 2
    omega
  · have e0 : U <<< (o + m - B) = (U * 2 ^ (o - B)) * 2 ^ m + 0 := by
      rw [Nat.shiftLeft_eq, add_zero, mul_assoc, ← pow_add]
      congr 2
      omega
    have hmid : U * 2 ^ (o - B) < 2 ^ o := by
      have hc := concat_lt U 0 B (o - B) hU (Nat.two_pow_pos _)
      have e3 : B + (o - B) = o := by omega
      rw [e3] at hc
      omega
    have eB : B - o = 0 := by omega
    rw [e0, landc_clear o m _ _ hmid (Nat.two_pow_pos _), eB]
    simp [Nat.shiftLeft_eq, Nat.mod_one]

/-- Values of well-formed queued fields concatenate below their total
width. -/
theorem vcat_lt (m : Nat) : ∀ fs : List (Nat × Nat), FOk m fs → vcat fs < 2 ^ wsum fs := by
  intro fs
  induction fs with
  | nil => intro _; simp [vcat, wsum]
  | cons f t ih =>
    intro hok
    obtain ⟨v, w⟩ := f
    have hv := hok (v, w) (List.mem_cons_self _ _)
    have ht : FOk m t := fun g hg => hok g (List.mem_cons_of_mem _ hg)
    have := concat_lt v (vcat t) w (wsum t) hv.1 (ih ht)
    simpa [vcat, wsum] using this

/-- The fill loop of next preserves the queued bit stream: it moves whole
fields from the front of the queue into the left-justified buffer until
out_wbits bits are pending or the queue is empty, never changing the
concatenated (width, value) stream. -/
theorem fillLoop_spec (o m : Nat) :
    ∀ (fs : List (Nat × Nat)) (u bc : Nat), u < 2 ^ bc → bc ≤ o + m → FOk m fs →
    ∃ u' bc' fs',
      fillLoop o (o + m) fs (u <<< (o + m - bc)) bc =
          (fs', u' <<< (o + m - bc'), bc') ∧
        u' < 2 ^ bc' ∧ bc' ≤ o + m ∧ FOk m fs' ∧
        bc' + wsum fs' = bc + wsum fs ∧
        u' * 2 ^ wsum fs' + vcat fs' = u * 2 ^ wsum fs + vcat fs ∧
        (o ≤ bc' ∨ fs' = []) := by
  intro fs
  induction fs with
  | nil =>
    intro u bc hu hbc _
    exact ⟨u, bc, [], rfl, hu, hbc, fun f hf => absurd hf (List.not_mem_nil f),
      rfl, rfl, Or.inr rfl⟩
  | cons f t ih =>
    obtain ⟨v, w⟩ := f
    intro u bc hu hbc hok
    have hw := hok (v, w) (List.mem_cons_self _ _)
    have ht : FOk m t := fun g hg => hok g (List.mem_cons_of_mem _ hg)
    by_cases hlt : bc < o
    · -- the loop body runs: fold (v, w) into the buffer
      have hbw : bc + w ≤ o + m := by omega
      have hfold : (u <<< (o + m - bc)) ||| (v <<< (o + m - bc - w)) =
          (u * 2 ^ w + v) <<< (o + m - (bc + w)) := by
        have e1 : o + m - bc - w = o + m - (bc + w) := by omega
        have e2 : o + m - bc = w + (o + m - (bc + w)) := by omega
        have hb : v * 2 ^ (o + m - (bc + w)) < 2 ^ (w + (o + m - (bc + w))) := by
          have hc := concat_lt v 0 w (o + m - (bc + w)) hw.1 (Nat.two_pow_pos _)
          omega
        rw [e1, Nat.shiftLeft_eq, Nat.shiftLeft_eq, Nat.shiftLeft_eq, e2,
          lor_mul_pow u (w + (o + m - (bc + w))) _ hb, pow_add]
        ring
      have hu2 : u * 2 ^ w + v < 2 ^ (bc + w) := concat_lt u v bc w hu hw.1
      obtain ⟨u', bc', fs', heq, hu', hbc', hok', hsw, hsv, hdisj⟩ :=
        ih (u * 2 ^ w + v) (bc + w) hu2 hbw ht
      refine ⟨u', bc', fs', ?_, hu', hbc', hok', ?_, ?_, hdisj⟩
      · show fillLoop o (o + m) ((v, w) :: t) (u <<< (o + m - bc)) bc = _
        rw [fillLoop, if_pos hlt, hfold]
        exact heq
      · show bc' + wsum fs' = bc + wsum ((v, w) :: t)
        rw [wsum]
        omega
      · show u' * 2 ^ wsum fs' + vcat fs' = u * 2 ^ wsum ((v, w) :: t) + vcat ((v, w) :: t)
        rw [hsv, wsum, vcat]
        rw [pow_add]
        ring
    · -- bc ≥ o: the loop exits immediately
      refine ⟨u, bc, (v, w) :: t, ?_, hu, hbc, hok, rfl, rfl, Or.inl (by omega)⟩
      rw [fillLoop, if_neg hlt]

/-- One successful next call on a well-formed packer state emits the top
out_wbits bits of the queued bit stream (zero-padded when fewer remain) and
leaves a well-formed state holding the rest of the stream. -/
theorem next_spec (o m u bc : Nat) (p : Packer)
    (hout : p.out_wbits = o) (hmax : p.max_wbits = m) (hrw : p.r_wbits = o + m)
    (hpm : p.pack_mask = 2 ^ o - 1) (hcb : p.clear_bits = (2 ^ o - 1) <<< m)
    (hr : p.r = u <<< (o + m - bc)) (hbc : p.bit_count = bc)
    (hu : u < 2 ^ bc) (hbco : bc ≤ o + m) (hfs : FOk m p.fields)
    (hne : 0 < bc + wsum p.fields) :
    ∃ u' bc' fs',
      p.next = some
        ((if o ≤ bc + wsum p.fields
            then (u * 2 ^ wsum p.fields + vcat p.fields) /
              2 ^ (bc + wsum p.fields - o)
            else (u * 2 ^ wsum p.fields + vcat p.fields) *
              2 ^ (o - (bc + wsum p.fields))),
          { p with fields := fs', r := u' <<< (o + m - bc'), bit_count := bc' }) ∧
      u' < 2 ^ bc' ∧ bc' ≤ o + m ∧ FOk m fs' ∧
      bc' + wsum fs' = bc + wsum p.fields - o ∧
      u' * 2 ^ wsum fs' + vcat fs' =
        (u * 2 ^ wsum p.fields + vcat p.fields) % 2 ^ (bc + wsum p.fields - o) := by
  obtain ⟨u1, bc1, fs1, heq, hu1, hbc1, hok1, hsw, hsv, hdisj⟩ :=
    fillLoop_spec o m p.fields u bc hu hbco hfs
  have hcond : ¬ (p.fields.length = 0 ∧ p.bit_count ≤ 0) := by
    rintro ⟨h1, h2⟩
    have hnil : p.fields = [] := List.length_eq_zero.mp h1
    rw [hnil] at hne
    simp [wsum] at hne
    rw [hbc] at h2
    omega
  have hcond2 : ¬ (p.fields.length = 0 ∧ bc ≤ 0) := fun h =>
    hcond ⟨h.1, by omega⟩
  refine ⟨u1 % 2 ^ (bc1 - o), bc1 - o, fs1, ?_, Nat.mod_lt _ (Nat.two_pow_pos _),
    by omega, hok1, ?_, ?_⟩
  · show p.next = _
    simp only [Packer.next, hout, hmax, hrw, hpm, hcb, hr, hbc, heq]
    rw [if_neg hcond2, extract_top o m u1 bc1 hu1 hbc1,
      clear_shift o m u1 bc1 hu1 hbc1]
    by_cases ho1 : o ≤ bc1
    · have hoW : o ≤ bc + wsum p.fields := by omega
      have hvc := vcat_lt m fs1 hok1
      have e1 : bc + wsum p.fields - o = (bc1 - o) + wsum fs1 := by omega
      have e2 : u * 2 ^ wsum p.fields + vcat p.fields =
          u1 * 2 ^ wsum fs1 + vcat fs1 := hsv.symm
      rw [if_pos ho1, if_pos hoW, e2, e1,
        div_concat u1 (vcat fs1) (bc1 - o) (wsum fs1) hvc]
    · have hfs1 : fs1 = [] := by
        rcases hdisj with h | h
        · omega
        · exact h
      subst hfs1
      have hbcW : bc1 = bc + wsum p.fields := by
        simpa [wsum] using hsw
      have hVu : u * 2 ^ wsum p.fields + vcat p.fields = u1 := by
        have := hsv
        simp [wsum, vcat] at this
        omega
      rw [if_neg ho1, hbcW.symm, if_neg (by omega : ¬ o ≤ bc1), hVu]
  · rcases hdisj with h | h
    · omega
    · subst h
      simp only [wsum] at hsw ⊢
      omega
  · by_cases ho1 : o ≤ bc1
    · have hvc := vcat_lt m fs1 hok1
      have e1 : bc + wsum p.fields - o = (bc1 - o) + wsum fs1 := by omega
      have e2 : u * 2 ^ wsum p.fields + vcat p.fields =
          u1 * 2 ^ wsum fs1 + vcat fs1 := hsv.symm
      rw [e2, e1, mod_concat u1 (vcat fs1) (bc1 - o) (wsum fs1) hvc]
    · have hfs1 : fs1 = [] := by
        rcases hdisj with h | h
        · omega
        · exact h
      subst hfs1
      have hbcW : bc1 = bc + wsum p.fields := by
        simpa [wsum] using hsw
      have e0 : bc1 - o = 0 := by omega
      have e1 : bc + wsum p.fields - o = 0 := by omega
      simp [wsum, vcat, e0, e1, Nat.mod_one]

/-- Well-formed field lists have positive widths, so a zero total width
forces an empty queue. -/
theorem wsum_zero_nil (m : Nat) (fs : List (Nat × Nat)) (hok : FOk m fs)
    (h : wsum fs = 0) : fs = [] := by
  cases fs with
  | nil => rfl
  | cons f t =>
    have := hok f (List.mem_cons_self _ _)
    rw [wsum] at h
    omega

/-- Draining a well-formed packer with enough fuel produces exactly the
out_wbits-sized chunks of its queued bit stream. -/
theorem drain_spec (o m : Nat) (ho : 1 ≤ o) :
    ∀ (fuel : Nat) (p : Packer) (u bc : Nat),
      p.out_wbits = o → p.max_wbits = m → p.r_wbits = o + m →
      p.pack_mask = 2 ^ o - 1 → p.clear_bits = (2 ^ o - 1) <<< m →
      p.r = u <<< (o + m - bc) → p.bit_count = bc →
      u < 2 ^ bc → bc ≤ o + m → FOk m p.fields →
      bc + wsum p.fields ≤ fuel →
      p.drain fuel =
        chunks o (bc + wsum p.fields) (u * 2 ^ wsum p.fields + vcat p.fields) := by
  intro fuel
  induction fuel with
  | zero =>
    intro p u bc _ _ _ _ _ _ _ _ _ _ hfuel
    have hW : bc + wsum p.fields = 0 := by omega
    rw [hW, Packer.drain, chunks]
    simp
  | succ fuel ih =>
    intro p u bc hout hmax hrw hpm hcb hr hbc hu hbco hfs hfuel
    by_cases hW : bc + wsum p.fields = 0
    · have hnil : p.fields = [] := wsum_zero_nil m p.fields hfs (by omega)
      have hnone : p.next = none := by
        rw [Packer.next, if_pos ⟨by rw [hnil]; rfl, by omega⟩]
      rw [Packer.drain, hnone, hW, chunks]
      simp
    · obtain ⟨u', bc', fs', hnext, hu', hbc', hok', hsw', hsv'⟩ :=
        next_spec o m u bc p hout hmax hrw hpm hcb hr hbc hu hbco hfs
          (by omega)
      have hstep : p.drain (fuel + 1) =
          (if o ≤ bc + wsum p.fields
            then (u * 2 ^ wsum p.fields + vcat p.fields) /
              2 ^ (bc + wsum p.fields - o)
            else (u * 2 ^ wsum p.fields + vcat p.fields) *
              2 ^ (o - (bc + wsum p.fields))) ::
          Packer.drain fuel
            { p with fields := fs'
                     r := u' <<< (o + m - bc')
                     bit_count := bc' } := by
        rw [Packer.drain, hnext]
      have ihp : Packer.drain fuel
            { p with fields := fs'
                     r := u' <<< (o + m - bc')
                     bit_count := bc' } =
          chunks o (bc' + wsum fs') (u' * 2 ^ wsum fs' + vcat fs') :=
        ih { p with fields := fs'
                    r := u' <<< (o + m - bc')
                    bit_count := bc' }
          u' bc' hout hmax hrw hpm hcb rfl rfl hu' hbc' hok'
          (show bc' + wsum fs' ≤ fuel by omega)
      rw [hstep, chunks, dif_neg (by omega : ¬ (bc + wsum p.fields = 0 ∨ o = 0))]
      congr 1
      rw [ihp, hsw', hsv']

/-- Packing a list of values with the default width only appends the
tagged fields to the queue. -/
theorem packAll_eq (vs : List Nat) : ∀ p : Packer,
    Packer.packAll p vs =
      { p with fields := p.fields ++ vs.map (fun v => (v, p.default_wbits)) } := by
  induction vs with
  | nil =>
    intro p
    simp [Packer.packAll]
  | cons v vs ih =>
    intro p
    show Packer.packAll (p.pack v none) vs = _
    rw [ih (p.pack v none)]
    simp [Packer.pack]

/-- Total width of a constant-width tagging of a value list. -/
theorem wsum_map_const (w : Nat) : ∀ vs : List Nat,
    wsum (vs.map (fun v => (v, w))) = w * vs.length := by
  intro vs
  induction vs with
  | nil => simp [wsum]
  | cons v vs ih =>
    simp only [List.map_cons, wsum, ih, List.length_cons]
    ring

/-- The repacking pipeline (fresh packer, pack everything at the input
width, drain to the end) produces exactly the output-width chunks of the
concatenated input bit stream. -/
theorem repack_chunks (iw ow : Nat) (hiw : 1 ≤ iw) (how : 1 ≤ ow)
    (vs : List Nat) (hvs : ∀ v ∈ vs, v < 2 ^ iw) :
    repack iw ow vs =
      chunks ow (wsum (vs.map (fun v => (v, iw))))
        (vcat (vs.map (fun v => (v, iw)))) := by
  have hP : Packer.packAll (Packer.init iw ow) vs =
      { Packer.init iw ow with fields := vs.map (fun v => (v, iw)) } := by
    rw [packAll_eq]
    have h1 : (Packer.init iw ow).fields = [] := rfl
    have h2 : (Packer.init iw ow).default_wbits = iw := rfl
    rw [h1, h2, List.nil_append]
    rfl
  have hok : FOk iw (vs.map (fun v => (v, iw))) := by
    intro f hf
    obtain ⟨v, hv, rfl⟩ := List.mem_map.mp hf
    exact ⟨hvs v hv, by omega, le_refl _⟩
  have hdrain := drain_spec ow iw how
    (wsum (vs.map (fun v => (v, iw))) + 1)
    { Packer.init iw ow with fields := vs.map (fun v => (v, iw)) }
    0 0
    rfl rfl rfl
    (by show or_mask ow = 2 ^ ow - 1; exact or_mask_eq ow)
    (by show or_mask ow <<< iw = (2 ^ ow - 1) <<< iw; rw [or_mask_eq])
    (by show (0:Nat) = 0 <<< (ow + iw - 0); simp)
    rfl (Nat.two_pow_pos 0) (by omega) hok (by simp)
  rw [repack, Packer.drainAll, hP]
  rw [show (Packer.init iw ow).bit_count = 0 from rfl, Nat.zero_add, hdrain]
  simp

/-- Every chunk of a bit stream fits in the output width. -/
theorem chunks_lt (o : Nat) : ∀ W V, V < 2 ^ W → ∀ x ∈ chunks o W V, x < 2 ^ o := by
  intro W
  induction W using Nat.strong_induction_on with
  | _ W ih =>
    intro V hV x hx
    rw [chunks] at hx
    split at hx
    · exact absurd hx (List.not_mem_nil x)
    · rename_i h
      rcases List.mem_cons.mp hx with hx | hx
      · subst hx
        by_cases hoW : o ≤ W
        · rw [if_pos hoW]
          exact div_lt_pow V W o hV hoW
        · rw [if_neg hoW]
          have hc := concat_lt V 0 W (o - W) hV (Nat.two_pow_pos _)
          rw [show W + (o - W) = o by omega] at hc
          omega
      · exact ih (W - o) (by omega) (V % 2 ^ (W - o))
          (Nat.mod_lt _ (Nat.two_pow_pos _)) x hx

/-- Re-tagging the chunks of a bit stream at the output width recovers the
original stream, shifted up by the zero padding of the final chunk. -/
theorem chunks_rejoin (o : Nat) (ho : 1 ≤ o) : ∀ W,
    ∀ V, V < 2 ^ W →
    ∃ pad, pad < o ∧ o ∣ (W + pad) ∧
      wsum ((chunks o W V).map (fun b => (b, o))) = W + pad ∧
      vcat ((chunks o W V).map (fun b => (b, o))) = V * 2 ^ pad := by
  intro W
  induction W using Nat.strong_induction_on with
  | _ W ih =>
    intro V hV
    by_cases h0 : W = 0
    · subst h0
      have hV0 : V = 0 := by simpa using hV
      refine ⟨0, by omega, ⟨0, by omega⟩, ?_, ?_⟩
      · rw [chunks]
        simp [wsum]
      · rw [chunks]
        simp [vcat, hV0]
    · rw [chunks, dif_neg (by omega : ¬ (W = 0 ∨ o = 0))]
      obtain ⟨pad, hpad, hdvd, hws, hvc⟩ := ih (W - o) (by omega)
        (V % 2 ^ (W - o)) (Nat.mod_lt _ (Nat.two_pow_pos _))
      by_cases hoW : o ≤ W
      · refine ⟨pad, hpad, ?_, ?_, ?_⟩
        · obtain ⟨q, hq⟩ := hdvd
          refine ⟨q + 1, ?_⟩
          have e : o * (q + 1) = o * q + o := by ring
          omega
        · simp only [List.map_cons, wsum, hws]
          omega
        · simp only [List.map_cons, vcat, hvc, hws, if_pos hoW]
          have hd := Nat.div_add_mod V (2 ^ (W - o))
          calc V / 2 ^ (W - o) * 2 ^ (W - o + pad) +
                V % 2 ^ (W - o) * 2 ^ pad
              = (2 ^ (W - o) * (V / 2 ^ (W - o)) + V % 2 ^ (W - o)) * 2 ^ pad := by
                rw [pow_add]; ring
            _ = V * 2 ^ pad := by rw [hd]
      · -- fewer than o bits remain: the single padded chunk
        have hW' : W - o = 0 := by omega
        have hnil : chunks o (W - o) (V % 2 ^ (W - o)) = [] := by
          rw [chunks]
          simp [hW']
        rw [hnil]
        refine ⟨o - W, by omega, ⟨1, by omega⟩, ?_, ?_⟩
        · simp [wsum]
          omega
        · simp only [List.map_cons, List.map_nil, vcat, wsum, if_neg hoW]
          simp [pow_zero]

/-- Chunking at width 9 a stream that is a concatenation of 9-bit codes
followed by pad zero bits (pad < 9) returns the codes, plus one trailing
zero value when pad is positive. -/
theorem chunks_exact_pad (p : Nat) (hp : p < 9) :
    ∀ codes : List Nat, (∀ c ∈ codes, c < 512) →
    chunks 9 (wsum (codes.map (fun c => (c, 9))) + p)
        (vcat (codes.map (fun c => (c, 9))) * 2 ^ p) =
      codes ++ (if p = 0 then [] else [0]) := by
  intro codes
  induction codes with
  | nil =>
    intro _
    simp only [List.map_nil, List.nil_append]
    rw [show wsum ([] : List (Nat × Nat)) = 0 from rfl,
      show vcat ([] : List (Nat × Nat)) = 0 from rfl, Nat.zero_add,
      Nat.zero_mul]
    by_cases hp0 : p = 0
    · subst hp0
      rw [chunks]
      simp
    · rw [if_neg hp0, chunks, dif_neg (by omega : ¬ (p = 0 ∨ (9:Nat) = 0)),
        if_neg (by omega : ¬ (9:Nat) ≤ p)]
      have hz : chunks 9 (p - 9) ((0:Nat) % 2 ^ (p - 9)) = [] := by
        rw [show p - 9 = 0 by omega, chunks]
        simp
      rw [hz]
      simp
  | cons c cs ih =>
    intro hc
    have hcs : ∀ x ∈ cs, x < 512 := fun x hx => hc x (List.mem_cons_of_mem _ hx)
    have hok : FOk 9 (cs.map (fun c => (c, 9))) := by
      intro f hf
      obtain ⟨v, hv, rfl⟩ := List.mem_map.mp hf
      have e : (2:Nat) ^ 9 = 512 := by norm_num
      exact ⟨by rw [e]; exact hcs v hv, by omega, le_refl _⟩
    have hvc := vcat_lt 9 _ hok
    simp only [List.map_cons, wsum, vcat]
    rw [chunks, dif_neg (by omega), if_pos (by omega :
      (9:Nat) ≤ 9 + wsum (cs.map (fun c => (c, 9))) + p)]
    have e1 : 9 + wsum (cs.map (fun c => (c, 9))) + p - 9 =
        wsum (cs.map (fun c => (c, 9))) + p := by omega
    rw [e1]
    have hX : (c * 2 ^ wsum (cs.map (fun c => (c, 9))) +
          vcat (cs.map (fun c => (c, 9)))) * 2 ^ p =
        c * 2 ^ (wsum (cs.map (fun c => (c, 9))) + p) +
          vcat (cs.map (fun c => (c, 9))) * 2 ^ p := by
      rw [pow_add]
      ring
    have hvc2 : vcat (cs.map (fun c => (c, 9))) * 2 ^ p <
        2 ^ (wsum (cs.map (fun c => (c, 9))) + p) := by
      have hcl := concat_lt (vcat (cs.map (fun c => (c, 9)))) 0
        (wsum (cs.map (fun c => (c, 9)))) p hvc (Nat.two_pow_pos _)
      omega
    have hhead : (c * 2 ^ wsum (cs.map (fun c => (c, 9))) +
          vcat (cs.map (fun c => (c, 9)))) * 2 ^ p /
        2 ^ (wsum (cs.map (fun c => (c, 9))) + p) = c := by
      rw [hX]
      have hdc := div_concat c (vcat (cs.map (fun c => (c, 9))) * 2 ^ p) 0
        (wsum (cs.map (fun c => (c, 9))) + p) hvc2
      simpa using hdc
    have htail : (c * 2 ^ wsum (cs.map (fun c => (c, 9))) +
          vcat (cs.map (fun c => (c, 9)))) * 2 ^ p %
        2 ^ (wsum (cs.map (fun c => (c, 9))) + p) =
        vcat (cs.map (fun c => (c, 9))) * 2 ^ p := by
      rw [hX, mul_comm c (2 ^ (wsum (cs.map (fun c => (c, 9))) + p)),
        Nat.mul_add_mod, Nat.mod_eq_of_lt hvc2]
    rw [hhead, htail, ih hcs]
    simp

/-- C1 amended: repacking a sequence of codes, each below 512, through a
Packer(9, out_wbits=8) and the produced bytes back through a
Packer(8, out_wbits=9) returns the original codes followed by one extra
zero code produced from the byte padding, except when the number of codes
is a multiple of 8, in which case the codes come back exactly. -/
theorem repack_roundtrip_padded (codes : List Nat)
    (h : ∀ c ∈ codes, c < 512) :
    repack 8 9 (repack 9 8 codes) =
      codes ++ (if codes.length % 8 = 0 then [] else [0]) := by
  have h9 : ∀ c ∈ codes, c < 2 ^ 9 := by
    intro c hc
    have e : (2:Nat) ^ 9 = 512 := by norm_num
    rw [e]
    exact h c hc
  have hok : FOk 9 (codes.map (fun c => (c, 9))) := by
    intro f hf
    obtain ⟨v, hv, rfl⟩ := List.mem_map.mp hf
    exact ⟨h9 v hv, by omega, le_refl _⟩
  have hV := vcat_lt 9 _ hok
  have henc : repack 9 8 codes =
      chunks 8 (wsum (codes.map (fun c => (c, 9))))
        (vcat (codes.map (fun c => (c, 9)))) :=
    repack_chunks 9 8 (by omega) (by omega) codes h9
  have hbs := chunks_lt 8 (wsum (codes.map (fun c => (c, 9))))
    (vcat (codes.map (fun c => (c, 9)))) hV
  have hdec := repack_chunks 8 9 (by omega) (by omega)
    (chunks 8 (wsum (codes.map (fun c => (c, 9))))
      (vcat (codes.map (fun c => (c, 9))))) hbs
  obtain ⟨pad, hpadlt, hdvd, hws, hvcp⟩ :=
    chunks_rejoin 8 (by omega) (wsum (codes.map (fun c => (c, 9))))
      (vcat (codes.map (fun c => (c, 9)))) hV
  rw [henc, hdec, hws, hvcp, chunks_exact_pad pad (by omega) codes h]
  have hlen : wsum (codes.map (fun c => (c, 9))) = 9 * codes.length :=
    wsum_map_const 9 codes
  congr 1
  obtain ⟨q, hq⟩ := hdvd
  by_cases hp0 : pad = 0
  · rw [if_pos hp0, if_pos (by omega)]
  · rw [if_neg hp0, if_neg (by omega)]

/-- Closed instance of the amended round trip at the two codes 300, 5. -/
theorem repack_roundtrip_padded_witness :
    (∀ c ∈ [300, 5], c < 512) ∧
      repack 8 9 (repack 9 8 [300, 5]) =
        [300, 5] ++ (if ([300, 5] : List Nat).length % 8 = 0 then [] else [0]) :=
  ⟨by decide, repack_roundtrip_padded [300, 5] (by decide)⟩

/-! ## Reachable-state invariant for the output mask -/

/-- pack never changes the stored default input width. -/
theorem pack_default_eq (p : Packer) (v : Nat) (w : Option Nat) :
    (p.pack v w).default_wbits = p.default_wbits := by
  cases w with
  | none => rfl
  | some w =>
    simp only [Packer.pack, Packer.update_max_wbits, Packer.update_masks]
    split <;> rfl

/-- The queue produced by pack (helper form of the frame property). -/
theorem pack_fields_eq (p : Packer) (v : Nat) (w : Option Nat) :
    (p.pack v w).fields = p.fields ++ [(v, w.getD p.default_wbits)] := by
  cases w with
  | none => rfl
  | some w =>
    simp only [Packer.pack, Packer.update_max_wbits, Packer.update_masks,
      Option.getD_some]
    split <;> rfl

/-- set_input_field_width does not touch the queue. -/
theorem set_input_fields_eq (p : Packer) (w : Nat) :
    (p.set_input_field_width w).fields = p.fields := by
  simp only [Packer.set_input_field_width, Packer.update_max_wbits,
    Packer.update_masks]
  split <;> rfl

/-- set_input_field_width does not touch the default width read by pack
(the source writes the misspelled attribute instead). -/
theorem set_input_default_eq (p : Packer) (w : Nat) :
    (p.set_input_field_width w).default_wbits = p.default_wbits := by
  simp only [Packer.set_input_field_width, Packer.update_max_wbits,
    Packer.update_masks]
  split <;> rfl

/-- In every reachable state the stored pack_mask is the all-ones mask of
the current output width: _update_masks runs at construction and after
every change of out_wbits or max_wbits. -/
theorem reachable_pack_mask (p : Packer) (h : Reachable p) :
    p.pack_mask = or_mask p.out_wbits := by
  induction h with
  | init iw ow => rfl
  | pack p v w _ ih =>
    cases w with
    | none => exact ih
    | some w =>
      simp only [Packer.pack, Packer.update_max_wbits, Packer.update_masks]
      split
      · rfl
      · exact ih
  | set_input p w _ ih =>
    simp only [Packer.set_input_field_width, Packer.update_max_wbits,
      Packer.update_masks]
    split
    · rfl
    · exact ih
  | set_output p w _ ih => rfl
  | next p v p' _ hn ih =>
    simp only [Packer.next] at hn
    split at hn
    · simp at hn
    · injection hn with h1
      injection h1 with hv hp'
      rw [← hp']
      exact ih

/-- C10: in every reachable Packer state, every value returned by next is
strictly below 2 to the output width in effect at the time of the call:
the extraction masks the result with pack_mask, which the invariant keeps
equal to the all-ones mask of out_wbits, including after any sequence of
set_output_field_width and width-growing pack calls. -/
theorem next_lt_two_pow_out (p : Packer) (h : Reachable p) (v : Nat)
    (p' : Packer) (hn : p.next = some (v, p')) : v < 2 ^ p.out_wbits := by
  have hpm := reachable_pack_mask p h
  simp only [Packer.next] at hn
  split at hn
  · simp at hn
  · injection hn with h1
    injection h1 with hv hp'
    have hle : v ≤ p.pack_mask := by
      rw [← hv]
      exact Nat.and_le_right
    have hlt := Nat.two_pow_pos p.out_wbits
    rw [hpm, or_mask_eq] at hle
    omega

/-- Closed instance of the next output bound on a reachable packer. -/
theorem next_lt_two_pow_out_witness :
    128 < 2 ^ ((Packer.init 1 8).pack 1 none).out_wbits :=
  next_lt_two_pow_out ((Packer.init 1 8).pack 1 none)
    (Reachable.pack (Packer.init 1 8) 1 none (Reachable.init 1 8)) 128
    { default_wbits := 1
      defualt_wbits := none
      fields := []
      r := 0
      out_wbits := 8
      max_wbits := 1
      r_wbits := 9
      bit_count := 0
      pack_mask := 255
      clear_bits := 510 }
    (by decide)

/-! ## The LZW encoder packs every code at width 9 -/

/-- One scan step of lzw_encode preserves the facts that the default input
width of the packer is still 9 and that every queued field has width 9:
the set_input_field_width call meant to widen the codes writes only the
misspelled attribute. -/
theorem lzw_step_widths (st : LZWTable × Packer × List Nat) (v : Nat)
    (hd : st.2.1.default_wbits = 9)
    (hf : ∀ f ∈ st.2.1.fields, f.2 = 9) :
    (lzw_step st v).2.1.default_wbits = 9 ∧
      ∀ f ∈ (lzw_step st v).2.1.fields, f.2 = 9 := by
  simp only [lzw_step]
  split
  · exact ⟨hd, hf⟩
  · constructor
    · rw [set_input_default_eq, pack_default_eq]
      exact hd
    · intro f hfm
      rw [set_input_fields_eq, pack_fields_eq] at hfm
      rcases List.mem_append.mp hfm with hfm | hfm
      · exact hf f hfm
      · rcases List.mem_singleton.mp hfm with rfl
        simpa using hd

/-- Width preservation through the whole scan loop. -/
theorem lzw_fold_widths (s : List Nat) : ∀ st : LZWTable × Packer × List Nat,
    st.2.1.default_wbits = 9 → (∀ f ∈ st.2.1.fields, f.2 = 9) →
    (s.foldl lzw_step st).2.1.default_wbits = 9 ∧
      ∀ f ∈ (s.foldl lzw_step st).2.1.fields, f.2 = 9 := by
  induction s with
  | nil => intro st hd hf; exact ⟨hd, hf⟩
  | cons v s ih =>
    intro st hd hf
    obtain ⟨hd', hf'⟩ := lzw_step_widths st v hd hf
    exact ih (lzw_step st v) hd' hf'

/-- C4: in lzw_encode every code is handed to the packer with width 9, no
matter how large the code values grow: the set_input_field_width calls
update only the misspelled attribute defualt_wbits, and pack keeps reading
default_wbits = 9.  Codes from 512 up need bit_length 512 = 10 bits, so
once the table passes code 511 (inputs of roughly 256 distinct-pair bytes
and a repeated pair suffice) a code is packed with an insufficient width,
against the claim. -/
theorem lzw_encode_width_stuck (s : List Nat) :
    ((lzw_packed s).fields).all (fun f => f.2 == 9) = true ∧
      bit_length 512 = 10 := by
  constructor
  · rw [List.all_eq_true]
    have h0 : ((Packer.init 9 8).pack LZW.CLEAR_TABLE none).default_wbits = 9 :=
      rfl
    have h0f : ∀ f ∈ ((Packer.init 9 8).pack LZW.CLEAR_TABLE none).fields,
        f.2 = 9 := by
      intro f hf
      rcases List.mem_singleton.mp hf with rfl
      rfl
    obtain ⟨hd, hf⟩ := lzw_fold_widths s
      (LZW.default_table, (Packer.init 9 8).pack LZW.CLEAR_TABLE none, []) h0 h0f
    intro f hfm
    unfold lzw_packed at hfm
    rw [pack_fields_eq] at hfm
    rcases List.mem_append.mp hfm with hfm | hfm
    · split at hfm
      · have := hf f hfm
        simpa using this
      · rw [pack_fields_eq] at hfm
        rcases List.mem_append.mp hfm with hfm | hfm
        · have := hf f hfm
          simpa using this
        · rcases List.mem_singleton.mp hfm with rfl
          simp [pack_default_eq, hd]
    · rcases List.mem_singleton.mp hfm with rfl
      split
      · simpa using hd
      · simp [pack_default_eq, hd]
  · rfl
